import Mathlib

/- Verification of the fsdb pattern-resolution subsystem of Fabric
(`internal/plugins/db/fsdb/patterns.go`): pattern lookup across the custom
and default pattern directories, the `{{input}}` sentinel-protection
resolution pipeline, and the interface to the template expander.

Modelling conventions: Go strings are Lean `String` values (lists of
characters); the filesystem is a partial map from paths to file contents
(`FS`) and from directories to entries (`DirFS`); the extension dispatcher
is an explicit function argument; every expansion additionally records the
trace of dispatcher invocations, so theorems can speak about which
extensions were invoked and with which values.  Functions of this
repository that are referenced by `patterns.go` but whose sources were not
provided (`template.ApplyTemplate`, `util.GetAbsolutePath`,
`StorageEntity.GetNames`) are modelled from the specification and marked as
such in their doc comments. -/

namespace Fabric

/-- A filesystem: maps a file path to its content, `none` when the file
cannot be read. -/
abbrev FS := String → Option String

/-- A directory listing oracle: maps a directory path to the list of entry
names in it, `none` when the directory cannot be read. -/
abbrev DirFS := String → Option (List String)

/-- One dispatcher invocation observed during template expansion:
extension name, operation name, and the (fully expanded) value argument. -/
abbrev ExtCall := String × String × String

/-- Embedding of Go `strings.Contains` on character lists: `pat` occurs as a
contiguous substring of the scanned list. -/
def listContains (pat : List Char) : List Char → Bool
  | [] => pat.isEmpty
  | c :: rest => pat.isPrefixOf (c :: rest) || listContains pat rest

/-- Embedding of Go `strings.Contains s pat`. -/
def strContains (s pat : String) : Bool := listContains pat.data s.data

/-- Embedding of Go `strings.HasPrefix s pre`. -/
def strStartsWith (s pre : String) : Bool := pre.data.isPrefixOf s.data

/-- Embedding of Go `strings.HasSuffix s suf`. -/
def strEndsWith (s suf : String) : Bool := suf.data.isSuffixOf s.data

/-- Worker for `strReplaceAll`: replaces every non-overlapping occurrence of
`pat` left to right.  `fuel` is an upper bound on the number of scanning
steps; it is always instantiated with the length of the scanned list, which
suffices because each step consumes at least one character. -/
def replaceGo (pat rep : List Char) : Nat → List Char → List Char
  | _, [] => []
  | 0, s => s
  | fuel + 1, c :: rest =>
    if pat.isPrefixOf (c :: rest) then
      rep ++ replaceGo pat rep fuel (rest.drop (pat.length - 1))
    else
      c :: replaceGo pat rep fuel rest

/-- Go `strings.ReplaceAll s "" rep` inserts `rep` before every character
and at the end; this helper implements that corner case. -/
def interleaveRep (rep : List Char) : List Char → List Char
  | [] => rep
  | c :: rest => rep ++ c :: interleaveRep rep rest

/-- Embedding of Go `strings.ReplaceAll s pat rep`: replaces every
non-overlapping occurrence of `pat` in `s` by `rep`, scanning left to
right; replacements are never rescanned. -/
def strReplaceAll (s pat rep : String) : String :=
  if pat.data.isEmpty then ⟨interleaveRep rep.data s.data⟩
  else ⟨replaceGo pat.data rep.data s.data.length s.data⟩

/-- Embedding of Go `filepath.Join` for two non-empty clean components. -/
def pathJoin (a b : String) : String := a ++ "/" ++ b

/-- The sentinel token of `patterns.go` (`inputSentinel`), used to protect
the reserved `{{input}}` placeholder during variable resolution. -/
def inputSentinel : String := "__FABRIC_INPUT_SENTINEL_TOKEN__"

/-- Scans for the `\x7d\x7d` that closes an already-opened `\x7b\x7b`,
keeping track of nested openings; returns the enclosed content and the
remainder after the closing braces. -/
def matchClose : List Char → Nat → Option (List Char × List Char)
  | [], _ => none
  | '{' :: '{' :: rest, depth =>
    match matchClose rest (depth + 1) with
    | some (c, r) => some ('{' :: '{' :: c, r)
    | none => none
  | '}' :: '}' :: rest, 0 => some ([], rest)
  | '}' :: '}' :: rest, depth + 1 =>
    match matchClose rest depth with
    | some (c, r) => some ('}' :: '}' :: c, r)
    | none => none
  | c :: rest, depth =>
    match matchClose rest depth with
    | some (cs, r) => some (c :: cs, r)
    | none => none

/-- Splits a character list at its first colon; `none` when there is no
colon.  Mirrors one step of Go `strings.SplitN(s, ":", n)`. -/
def splitColon : List Char → Option (List Char × List Char)
  | [] => none
  | c :: rest =>
    if c = ':' then some ([], rest)
    else
      match splitColon rest with
      | some (a, b) => some (c :: a, b)
      | none => none

/-- Splits the content of an extension placeholder `ext:name:operation:value`
into its three segments after `ext`; the value segment may itself contain
colons and nested placeholders. -/
def splitExt (content : List Char) : Option (String × String × List Char) :=
  if "ext:".data.isPrefixOf content then
    match splitColon (content.drop 4) with
    | none => none
    | some (name, rest1) =>
      match splitColon rest1 with
      | none => none
      | some (op, value) => some (⟨name⟩, ⟨op⟩, value)
  else none

/-- Worker for `ApplyTemplate`.  Modelled from the spec: the general
placeholder expander performs a single pass, recognizing `\x7b\x7bname\x7d\x7d`
(value taken from the variable mapping, the reserved name `input` always
bound to the explicit input argument, unknown names resolving to the empty
string) and `\x7b\x7bext:name:operation:value\x7d\x7d` (the value
sub-expression is first expanded recursively, occurrences of the sentinel
in it resolve to the true input, then the dispatcher is invoked and its
output spliced in place; a dispatcher failure aborts the whole expansion
with an error identifying the extension and operation).  Spliced output is
never rescanned.  `fuel` is an upper bound on the scanning steps, always
instantiated with the length of the text; exhaustion returns the remaining
text verbatim. -/
def expandGo (dispatch : String → String → String → Except String String)
    (vars : List (String × String)) (input : String) :
    Nat → List Char → Except String (List Char × List ExtCall)
  | _, [] => .ok ([], [])
  | 0, s => .ok (s, [])
  | fuel + 1, '{' :: '{' :: rest =>
    match matchClose rest 0 with
    | none => .ok ('{' :: '{' :: rest, [])
    | some (content, r) =>
      if "ext:".data.isPrefixOf content then
        match splitExt content with
        | none => .error ("invalid extension call syntax: " ++ String.mk content)
        | some (name, op, value) =>
          match expandGo dispatch vars input fuel value with
          | .error e => .error e
          | .ok (ev, innerCalls) =>
            let arg := strReplaceAll ⟨ev⟩ inputSentinel input
            match dispatch name op arg with
            | .error e => .error ("extension " ++ name ++ ":" ++ op ++ ": " ++ e)
            | .ok out =>
              match expandGo dispatch vars input fuel r with
              | .error e => .error e
              | .ok (tail, tailCalls) =>
                .ok (out.data ++ tail, innerCalls ++ (name, op, arg) :: tailCalls)
      else
        let nm : String := ⟨content⟩
        let v := if nm = "input" then input else ((vars.lookup nm).getD "")
        match expandGo dispatch vars input fuel r with
        | .error e => .error e
        | .ok (tail, tailCalls) => .ok (v.data ++ tail, tailCalls)
  | fuel + 1, c :: rest =>
    match expandGo dispatch vars input fuel rest with
    | .error e => .error e
    | .ok (tail, tailCalls) => .ok (c :: tail, tailCalls)

/-- Modelled from the spec: `template.ApplyTemplate(content, vars, input)`
(file `internal/plugins/template/template.go`, not among the provided
sources).  Runs the general placeholder expander over `content`, supplying
the variable mapping and the real input value; returns the resolved text
together with the trace of dispatcher invocations, or the error that
aborted the expansion. -/
def ApplyTemplate (dispatch : String → String → String → Except String String)
    (content : String) (vars : List (String × String)) (input : String) :
    Except String (String × List ExtCall) :=
  match expandGo dispatch vars input content.data.length content.data with
  | .error e => .error e
  | .ok (out, calls) => .ok (⟨out⟩, calls)

/-- The `Pattern` struct of `patterns.go`. -/
structure Pattern where
  Name : String
  Description : String
  Pattern : String
  deriving DecidableEq

/-- The `StorageEntity` struct of `fsdb` (fields used by `patterns.go`). -/
structure StorageEntity where
  Dir : String
  Label : String
  ItemIsDir : Bool
  FileExtension : String
  deriving DecidableEq

/-- The `PatternsEntity` struct of `patterns.go`; `storage` is the embedded
`StorageEntity`. -/
structure PatternsEntity where
  storage : StorageEntity
  SystemPatternFile : String
  UniquePatternsFilePath : String
  CustomPatternsDir : String
  deriving DecidableEq

/-- Function `ensureInput` of `patterns.go`, on the pattern text: if the text does
not contain the reserved `{{input}}` placeholder, append a line break when
one is missing and then the placeholder itself. -/
def ensureInput (text : String) : String :=
  if strContains text "{{input}}" then text
  else (if strEndsWith text "\n" then text else text ++ "\n") ++ "{{input}}"

/-- Function `applyInput` of `patterns.go`: ensure the input placeholder is present,
then replace every literal `{{input}}` occurrence directly with the input
string; nothing else is transformed. -/
def applyInput (p : Pattern) (input : String) : Pattern :=
  { p with Pattern := strReplaceAll (ensureInput p.Pattern) "{{input}}" input }

/-- Function `applyVariables` of `patterns.go`.  The returned triple mirrors the Go
function's effect: the final state of the (mutably updated) pattern, the
returned error, and the trace of dispatcher invocations made by the
expansion phase.  On an expansion error the pattern keeps the text produced
by `ensureInput`; no sentinel substitution is committed. -/
def applyVariables (dispatch : String → String → String → Except String String)
    (p : Pattern) (vars : List (String × String)) (input : String) :
    Pattern × Option String × List ExtCall :=
  let ensured := ensureInput p.Pattern
  let withSentinel := strReplaceAll ensured "{{input}}" inputSentinel
  match ApplyTemplate dispatch withSentinel vars input with
  | .error e => ({ p with Pattern := ensured }, some e, [])
  | .ok (processed, calls) =>
    ({ p with Pattern := strReplaceAll processed inputSentinel input }, none, calls)

/-- Modelled from the spec: `util.GetAbsolutePath` (file `internal/util`,
not among the provided sources) resolves an identifier that looks like a
path to an absolute path, expanding a leading home marker to the user's
home directory. -/
def GetAbsolutePath (homedir : Option String) (path : String) : Except String String :=
  if strStartsWith path "~" then
    match homedir with
    | some h => .ok (h ++ path.drop 1)
    | none => .error "could not determine home directory"
  else .ok path

/-- Function `getFromFile` of `patterns.go`: expands a leading `~/`, reads the file,
and wraps a read failure in an error message.  The pair mirrors the Go
multiple return values `(pattern, err)`. -/
def getFromFile (homedir : Option String) (fs : FS) (pathStr : String) :
    Option Pattern × Option String :=
  if strStartsWith pathStr "~/" then
    match homedir with
    | none => (none, some "could not get home directory")
    | some h =>
      let p := pathJoin h (pathStr.drop 2)
      match fs p with
      | none => (none, some ("could not read pattern file " ++ p))
      | some content => (some ⟨p, "", content⟩, none)
  else
    match fs pathStr with
    | none => (none, some ("could not read pattern file " ++ pathStr))
    | some content => (some ⟨pathStr, "", content⟩, none)

/-- Function `getFromDB` of `patterns.go`: when a custom patterns directory is
configured and the pattern's system file is readable there, that content is
returned and the default directory is never consulted; otherwise the
default directory is read, a read failure there being returned as-is. -/
def getFromDB (o : PatternsEntity) (fs : FS) (name : String) :
    Option Pattern × Option String :=
  let mainPath := pathJoin (pathJoin o.storage.Dir name) o.SystemPatternFile
  let fromMain : Option Pattern × Option String :=
    match fs mainPath with
    | none => (none, some ("open " ++ mainPath ++ ": no such file or directory"))
    | some content => (some ⟨name, "", content⟩, none)
  if o.CustomPatternsDir ≠ "" then
    match fs (pathJoin (pathJoin o.CustomPatternsDir name) o.SystemPatternFile) with
    | some content => (some ⟨name, "", content⟩, none)
    | none => fromMain
  else fromMain

/-- Function `loadPattern` of `patterns.go`.  For a path-like identifier the file is
read via `getFromFile`, but the Go code discards that call's error
(`pattern, _ = o.getFromFile(absPath)`), so a read failure yields a `nil`
pattern together with a `nil` error; this embedding reproduces that
faithfully. -/
def loadPattern (o : PatternsEntity) (homedir : Option String) (fs : FS)
    (source : String) : Option Pattern × Option String :=
  let isFilePath := strStartsWith source "\\" || strStartsWith source "/" ||
    strStartsWith source "~" || strStartsWith source "."
  if isFilePath then
    match GetAbsolutePath homedir source with
    | .error e => (none, some ("could not resolve file path: " ++ e))
    | .ok absPath => ((getFromFile homedir fs absPath).1, none)
  else
    getFromDB o fs source

/-- Function `GetApplyVariables` of `patterns.go`.  The result is `none` exactly when
the Go code dereferences a `nil` pattern (a runtime panic): that happens
when `loadPattern` returns a `nil` pattern with a `nil` error.  Otherwise
the result carries the Go return values `(pattern, err)` plus the trace of
dispatcher invocations. -/
def GetApplyVariables (o : PatternsEntity) (homedir : Option String) (fs : FS)
    (dispatch : String → String → String → Except String String)
    (source : String) (vars : List (String × String)) (input : String) :
    Option (Option Pattern × Option String × List ExtCall) :=
  match loadPattern o homedir fs source with
  | (p?, some e) => some (p?, some e, [])
  | (some p, none) =>
    let (p', e?, calls) := applyVariables dispatch p vars input
    some (some p', e?, calls)
  | (none, none) => none

/-- Function `GetWithoutVariables` of `patterns.go`: loads the pattern and replaces
only the `{{input}}` placeholder, skipping template variable and extension
expansion entirely.  `none` marks the `nil`-pattern dereference, as in
`GetApplyVariables`. -/
def GetWithoutVariables (o : PatternsEntity) (homedir : Option String) (fs : FS)
    (source : String) (input : String) : Option (Option Pattern × Option String) :=
  match loadPattern o homedir fs source with
  | (p?, some e) => some (p?, some e)
  | (some p, none) => some (some (applyInput p input), none)
  | (none, none) => none

/-- Function `Get` of `patterns.go`: the Storage-interface entry point, implemented
as `GetApplyVariables` with no variables and empty input. -/
def Get (o : PatternsEntity) (homedir : Option String) (fs : FS)
    (dispatch : String → String → String → Except String String)
    (name : String) : Option (Option Pattern × Option String × List ExtCall) :=
  GetApplyVariables o homedir fs dispatch name [] ""

/-- Lexicographic comparison of character lists by code point, the order
used by Go `sort.Strings` on ASCII data. -/
def charListLe : List Char → List Char → Bool
  | [], _ => true
  | _ :: _, [] => false
  | a :: as, b :: bs =>
    if a < b then true else if b < a then false else charListLe as bs

/-- Lexicographic string comparison (by code points). -/
def strLe (a b : String) : Bool := charListLe a.data b.data

/-- Embedding of Go `sort.Strings`: sorts ascending by `strLe`. -/
def sortStrings (l : List String) : List String :=
  List.insertionSort (fun a b => strLe a b = true) l

/-- Modelled from the spec: `StorageEntity.GetNames` (file
`internal/plugins/db/fsdb/storage.go`, not among the provided sources)
lists the names present in the entity's directory; a directory read
failure is an error. -/
def StorageEntity.GetNames (dirs : DirFS) (s : StorageEntity) :
    Except String (List String) :=
  match dirs s.Dir with
  | some names => .ok names
  | none => .error ("could not read directory " ++ s.Dir)

/-- Function `GetNames` of `patterns.go`: names from the main patterns directory
(whose read failure propagates), united with the names from the custom
patterns directory when one is configured (whose read failure is ignored),
deduplicated via a map whose keys are finally sorted alphabetically. -/
def PatternsEntity.GetNames (o : PatternsEntity) (dirs : DirFS) :
    Except String (List String) :=
  match StorageEntity.GetNames dirs o.storage with
  | .error e => .error e
  | .ok mainNames =>
    let names :=
      if o.CustomPatternsDir ≠ "" then
        match StorageEntity.GetNames dirs
            { Dir := o.CustomPatternsDir, Label := "",
              ItemIsDir := o.storage.ItemIsDir,
              FileExtension := o.storage.FileExtension } with
        | .ok customNames => mainNames ++ customNames
        | .error _ => mainNames
      else mainNames
    .ok (sortStrings names.dedup)


/-- An extension dispatcher stub that echoes its value argument. -/
def echoDispatch : String → String → String → Except String String :=
  fun _ _ v => .ok v

/-- A dispatcher stub that fails every invocation. -/
def failDispatch : String → String → String → Except String String :=
  fun _ _ _ => .error "boom"

/-- A filesystem with no readable files. -/
def emptyFS : FS := fun _ => none

/-- A sample patterns entity: default directory `patterns`, system file
`system.md`, no custom override directory. -/
def oPat : PatternsEntity where
  storage := { Dir := "patterns", Label := "patterns", ItemIsDir := true, FileExtension := "" }
  SystemPatternFile := "system.md"
  UniquePatternsFilePath := "unique"
  CustomPatternsDir := ""

/-- Filesystem holding the regression pattern of the spec: an extension
call whose value is the reserved input placeholder. -/
def fsAiEcho : FS := fun p =>
  if p = "patterns/ai_echo/system.md" then some "{{ext:openai:chat:{{input}}}}"
  else none

/-- Filesystem holding a pattern that just embeds the input. -/
def fsTest : FS := fun p =>
  if p = "patterns/test/system.md" then some "Test: {{input}}" else none

/-- Filesystem holding a pattern with a variable, an extension call and the
input placeholder. -/
def fsNV : FS := fun p =>
  if p = "patterns/nv/system.md" then
    some "Name: {{name}}, Ext: {{ext:a:b:c}}, Input: {{input}}"
  else none

/-- Filesystem holding a pattern with one extension call and no input
placeholder. -/
def fsGreet : FS := fun p =>
  if p = "patterns/greet/system.md" then some "Say: {{ext:greet:hello:world}}"
  else none

/-- Filesystem holding a pattern consisting of a single extension call. -/
def fsExtOnly : FS := fun p =>
  if p = "patterns/e/system.md" then some "{{ext:a:b:c}}" else none

/-- Filesystem holding a plain pattern without placeholders. -/
def fsPlain : FS := fun p =>
  if p = "patterns/plain/system.md" then some "Hello" else none

/-- Interleaving of a separator between text segments: the shape of a
pattern text around its placeholder occurrences. -/
def joinSep (sep : List Char) : List (List Char) → List Char
  | [] => []
  | [s] => s
  | s :: rest => s ++ (sep ++ joinSep sep rest)

/-- Filesystem holding a pattern with a variable placeholder, an extension
call and two occurrences of the input placeholder. -/
def fsMulti : FS := fun p =>
  if p = "patterns/multi/system.md" then
    some "Name: {{name}}, Ext: {{ext:a:b:c}}, In: {{input}}, Again: {{input}}!"
  else none

/-- The pattern text consisting of a single extension call whose value
argument is the reserved input placeholder. -/
def extInputPattern (name op : String) : String :=
  "\x7b\x7bext:" ++ name ++ ":" ++ op ++ ":\x7b\x7binput\x7d\x7d\x7d\x7d"

/-- Predicate `listContains` agrees with the infix relation. -/
theorem listContains_iff {pat s : List Char} : listContains pat s = true ↔ pat <:+: s := by
  induction s with
  | nil =>
    rw [listContains, List.isEmpty_iff]
    constructor
    · intro h; rw [h]
    · intro h; exact List.eq_nil_of_infix_nil h
  | cons c rest ih =>
    rw [listContains, Bool.or_eq_true, ih, List.infix_cons_iff,
       List.isPrefixOf_iff_prefix]

theorem listContains_append_left {pat a : List Char} (b : List Char)
    (h : listContains pat a = true) : listContains pat (a ++ b) = true := by
  rw [listContains_iff] at h ⊢
  exact h.trans ((List.prefix_append a b).isInfix)

theorem listContains_append_right {pat b : List Char} (a : List Char)
    (h : listContains pat b = true) : listContains pat (a ++ b) = true := by
  rw [listContains_iff] at h ⊢
  exact h.trans ((List.suffix_append a b).isInfix)

/-- A prefix agrees with the scanned list position by position. -/
theorem getElem?_of_isPrefixOf {pat l : List Char} (h : pat.isPrefixOf l = true)
    {j : Nat} (hj : j < pat.length) : l[j]? = pat[j]? := by
  rw [ List.isPrefixOf_iff_prefix] at h
  obtain ⟨t, rfl⟩ := h
  rw [List.getElem?_append]
  simp [hj]

theorem mem_of_isPrefixOf_getElem {pat l : List Char} (h : pat.isPrefixOf l = true)
    {j : Nat} (hj : j < pat.length) {c : Char} (hc : l[j]? = some c) : c ∈ pat := by
  rw [getElem?_of_isPrefixOf h hj] at hc
  exact List.getElem?_mem hc

/-- No occurrence of `pat` can start inside `q` when `pat` does not occur in
`q` and the character `c` separating `q` from the rest does not occur in
`pat`. -/
theorem isPrefixOf_boundary_false {pat q : List Char} {c : Char} {s : List Char}
    (hpat : pat ≠ []) (hc : c ∉ pat) (hq : listContains pat q = false) :
    pat.isPrefixOf (q ++ c :: s) = false := by
  by_contra h
  rw [Bool.not_eq_false] at h
  by_cases hlen : pat.length ≤ q.length
  · have hpre : pat <+: q := by
      refine List.prefix_of_prefix_length_le ?_ (List.prefix_append q (c :: s)) hlen
      exact ( List.isPrefixOf_iff_prefix).mp h
    have : listContains pat q = true := listContains_iff.mpr hpre.isInfix
    simp [this] at hq
  · push_neg at hlen
    have hget : (q ++ c :: s)[q.length]? = some c := by
      rw [List.getElem?_append_right (le_refl q.length)]
      simp
    exact hc (mem_of_isPrefixOf_getElem h hlen hget)

/-- Scanning `q ++ c :: s` replaces nothing inside `q ++ [c]` when `pat`
does not occur in `q` and `c` is not a character of `pat`. -/
theorem replaceGo_append_sep (pat rep : List Char) {q : List Char} {c : Char} (s : List Char)
    (hpat : pat ≠ []) (hc : c ∉ pat) (hq : listContains pat q = false) :
    ∀ fuel, (q ++ c :: s).length ≤ fuel →
      replaceGo pat rep fuel (q ++ c :: s)
        = q ++ c :: replaceGo pat rep (fuel - (q.length + 1)) s := by
  induction q with
  | nil =>
    intro fuel hf
    simp only [List.nil_append, List.length_cons] at hf
    obtain ⟨f, rfl⟩ : ∃ f, fuel = f + 1 := ⟨fuel - 1, by omega⟩
    rw [List.nil_append, replaceGo]
    have hb : pat.isPrefixOf (c :: s) = false := by
      simpa using isPrefixOf_boundary_false (q := []) (s := s) hpat hc
        (by simp [listContains, List.isEmpty_iff, hpat])
    rw [hb]
    simp
  | cons d q' ih =>
    intro fuel hf
    simp only [List.cons_append, List.length_cons, List.length_append] at hf
    obtain ⟨f, rfl⟩ : ∃ f, fuel = f + 1 := ⟨fuel - 1, by omega⟩
    rw [List.cons_append, replaceGo]
    have hnm : pat.isPrefixOf (d :: (q' ++ c :: s)) = false := by
      have h0 := isPrefixOf_boundary_false (q := d :: q') (s := s) hpat hc hq
      simpa using h0
    rw [hnm]
    simp only [Bool.false_eq_true, if_false]
    have hq' : listContains pat q' = false := by
      rw [listContains, Bool.or_eq_false_iff] at hq
      exact hq.2
    rw [ih hq' f (by simp only [List.length_append, List.length_cons]; omega)]
    have harith : f - (q'.length + 1) = f + 1 - (q'.length + 1 + 1) := by omega
    rw [harith]
    simp

/-- Scanning a list that starts with `pat` itself replaces that occurrence. -/
theorem replaceGo_head_match (pat rep s : List Char) (hpat : pat ≠ []) :
    ∀ fuel, (pat ++ s).length ≤ fuel →
      replaceGo pat rep fuel (pat ++ s) = rep ++ replaceGo pat rep (fuel - 1) s := by
  intro fuel hf
  obtain ⟨p, pt, rfl⟩ : ∃ p pt, pat = p :: pt := by
    cases pat with
    | nil => exact absurd rfl hpat
    | cons p pt => exact ⟨p, pt, rfl⟩
  obtain ⟨f, rfl⟩ : ∃ f, fuel = f + 1 := by
    refine ⟨fuel - 1, ?_⟩
    simp only [List.cons_append, List.length_cons] at hf
    omega
  rw [List.cons_append, replaceGo]
  have hpre : (p :: pt).isPrefixOf (p :: (pt ++ s)) = true := by
    rw [ List.isPrefixOf_iff_prefix, ← List.cons_append]
    exact List.prefix_append _ _
  rw [hpre]
  simp only [if_true, Nat.add_sub_cancel]
  congr 1
  have : (p :: pt).length - 1 = pt.length := by simp
  rw [this, List.drop_left]

/-- If `pat` occurs in the scanned list, the replacement string occurs in
the result. -/
theorem replaceGo_contains (pat rep : List Char) (hpat : pat ≠ []) :
    ∀ fuel s, s.length ≤ fuel → listContains pat s = true →
      ∃ x y, replaceGo pat rep fuel s = x ++ rep ++ y := by
  intro fuel
  induction fuel with
  | zero =>
    intro s hf hs
    have : s = [] := List.eq_nil_of_length_eq_zero (by omega)
    subst this
    rw [listContains, List.isEmpty_iff] at hs
    simp [hpat] at hs
  | succ f ih =>
    intro s hf hs
    cases s with
    | nil =>
      rw [listContains, List.isEmpty_iff] at hs
      simp [hpat] at hs
    | cons c rest =>
      rw [replaceGo]
      by_cases hp : pat.isPrefixOf (c :: rest) = true
      · rw [hp]
        exact ⟨[], replaceGo pat rep f (rest.drop (pat.length - 1)), by simp⟩
      · rw [Bool.not_eq_true] at hp
        rw [hp]
        simp only [Bool.false_eq_true, if_false]
        rw [listContains, hp] at hs
        simp only [Bool.false_or] at hs
        obtain ⟨x, y, hxy⟩ := ih rest (by simp only [List.length_cons] at hf; omega) hs
        exact ⟨c :: x, y, by simp [hxy]⟩


/-- Unfolding of `expandGo` on a cons cell whose head is not an opening
brace: the character is copied and scanning continues. -/
theorem expandGo_cons_of_ne (d : String → String → String → Except String String)
    (vs : List (String × String)) (inp : String) (f : Nat) (c : Char) (hc : c ≠ '{')
    (rest : List Char) :
    expandGo d vs inp (f + 1) (c :: rest)
      = match expandGo d vs inp f rest with
        | .error e => .error e
        | .ok (tail, tailCalls) => .ok (c :: tail, tailCalls) := by
  rw [expandGo.eq_def]
  split
  · rename_i heq
    simp at heq
  · rename_i heq _
    omega
  · rename_i rest' heq
    rw [List.cons.injEq] at heq
    exact absurd heq.1 hc
  · rename_i h1 h2
    rw [List.cons.injEq] at h2
    obtain ⟨rfl, rfl⟩ := h2
    injection h1 with h3
    cases h3
    rfl

/-- Unfolding of `expandGo` on a cons cell whose second character is not an
opening brace. -/
theorem expandGo_cons_of_snd_ne (d : String → String → String → Except String String)
    (vs : List (String × String)) (inp : String) (f : Nat) (c c2 : Char) (hc2 : c2 ≠ '{')
    (rest : List Char) :
    expandGo d vs inp (f + 1) (c :: c2 :: rest)
      = match expandGo d vs inp f (c2 :: rest) with
        | .error e => .error e
        | .ok (tail, tailCalls) => .ok (c :: tail, tailCalls) := by
  rw [expandGo.eq_def]
  split
  · rename_i heq
    simp at heq
  · rename_i heq _
    omega
  · rename_i rest' heq
    rw [List.cons.injEq] at heq
    rw [List.cons.injEq] at heq
    exact absurd heq.2.1 hc2
  · rename_i h1 h2
    rw [List.cons.injEq] at h2
    obtain ⟨rfl, rfl⟩ := h2
    injection h1 with h3
    cases h3
    rfl

/-- Evaluation of `expandGo` on the empty list. -/
theorem expandGo_nil (d : String → String → String → Except String String)
    (vs : List (String × String)) (inp : String) (fuel : Nat) :
    expandGo d vs inp fuel [] = .ok ([], []) := by
  cases fuel <;> rfl

/-- Evaluation of `expandGo` on a single character returns it unchanged. -/
theorem expandGo_single (d : String → String → String → Except String String)
    (vs : List (String × String)) (inp : String) (f : Nat) (c : Char) :
    expandGo d vs inp (f + 1) [c] = .ok ([c], []) := by
  rw [expandGo.eq_def]
  split
  · rename_i heq
    simp at heq
  · rename_i heq _
    omega
  · rename_i rest' heq
    simp at heq
  · rename_i h1 h2
    rw [List.cons.injEq] at h2
    obtain ⟨rfl, rfl⟩ := h2
    injection h1 with h3
    cases h3
    rw [expandGo_nil]

/-- Text without opening braces is passed through `expandGo` verbatim, with
no dispatcher invocations. -/
theorem expandGo_no_brace (d : String → String → String → Except String String)
    (vs : List (String × String)) (inp : String) :
    ∀ fuel s, '{' ∉ s → expandGo d vs inp fuel s = .ok (s, []) := by
  intro fuel
  induction fuel with
  | zero => intro s h; cases s <;> rfl
  | succ f ih =>
    intro s h
    cases s with
    | nil => rfl
    | cons c rest =>
      have hc : c ≠ '{' := fun hx => h (hx ▸ List.mem_cons_self c rest)
      rw [expandGo_cons_of_ne d vs inp f c hc rest,
        ih rest (fun hx => h (List.mem_cons_of_mem c hx))]

/-- A successful `matchClose` decomposes its argument as the content
followed by the closing braces and the remainder. -/
theorem matchClose_eq : ∀ (s : List Char) (d : Nat) (c r : List Char),
    matchClose s d = some (c, r) → s = c ++ '}' :: '}' :: r := by
  intro s d
  induction s, d using matchClose.induct with
  | case1 d =>
    intro c r h
    simp [matchClose] at h
  | case2 rest d c' r' hmc ih =>
    intro c r h
    rw [matchClose, hmc] at h
    rw [Option.some.injEq, Prod.mk.injEq] at h
    obtain ⟨rfl, rfl⟩ := h
    rw [List.cons_append, List.cons_append, ← ih c' r' hmc]
  | case3 rest d hnone ih =>
    intro c r h
    rw [matchClose, hnone] at h
    simp at h
  | case4 rest =>
    intro c r h
    rw [matchClose] at h
    rw [Option.some.injEq, Prod.mk.injEq] at h
    obtain ⟨rfl, rfl⟩ := h
    rfl
  | case5 rest d c' r' hmc ih =>
    intro c r h
    rw [matchClose, hmc] at h
    rw [Option.some.injEq, Prod.mk.injEq] at h
    obtain ⟨rfl, rfl⟩ := h
    rw [List.cons_append, List.cons_append, ← ih c' r' hmc]
  | case6 rest d hnone ih =>
    intro c r h
    rw [matchClose, hnone] at h
    simp at h
  | case7 =>
    rename_i c0 tl dep hc1 hc2 hc3 c' r' hmc ih
    intro c r h
    rw [matchClose, hmc] at h
    · rw [Option.some.injEq, Prod.mk.injEq] at h
      obtain ⟨rfl, rfl⟩ := h
      rw [List.cons_append, ← ih c' r' hmc]
    all_goals assumption
  | case8 =>
    rename_i c0 tl dep hc1 hc2 hc3 hnone ih
    intro c r h
    rw [matchClose, hnone] at h
    · simp at h
    all_goals assumption

/-- Among two suffixes of the same list, the shorter is a suffix of the
longer. -/
theorem suffix_of_suffix_length_le {l1 l2 t : List Char} (h1 : l1 <:+ t)
    (h2 : l2 <:+ t) (h : l1.length ≤ l2.length) : l1 <:+ l2 := by
  rw [← List.reverse_prefix] at h1 h2 ⊢
  exact List.prefix_of_prefix_length_le h1 h2 (by simpa using h)

/-- A brace-free token that is a suffix of the scanned text survives
expansion: it occurs in the output whenever `expandGo` succeeds.  This is
the heart of the sentinel-protection argument: the sentinel contains no
braces, so no placeholder match can consume it. -/
theorem expandGo_keeps_token (dd : String → String → String → Except String String)
    (vs : List (String × String)) (inp : String) (tok : List Char)
    (h1 : '{' ∉ tok) (h2 : '}' ∉ tok) :
    ∀ fuel s out calls, tok <:+ s →
      expandGo dd vs inp fuel s = .ok (out, calls) →
      listContains tok out = true := by
  intro fuel
  induction fuel with
  | zero =>
    intro s out calls hsuf h
    cases s with
    | nil =>
      rw [expandGo_nil] at h
      simp only [Except.ok.injEq, Prod.mk.injEq] at h
      obtain ⟨rfl, rfl⟩ := h
      have htok : tok = [] := List.suffix_nil.mp hsuf
      subst htok
      rfl
    | cons c rest =>
      have e : expandGo dd vs inp 0 (c :: rest) = .ok (c :: rest, []) := rfl
      rw [e] at h
      simp only [Except.ok.injEq, Prod.mk.injEq] at h
      obtain ⟨rfl, rfl⟩ := h
      exact listContains_iff.mpr hsuf.isInfix
  | succ f ih =>
    intro s out calls hsuf h
    rcases s with _ | ⟨c, _ | ⟨c2, rest⟩⟩
    · rw [expandGo_nil] at h
      simp only [Except.ok.injEq, Prod.mk.injEq] at h
      obtain ⟨rfl, rfl⟩ := h
      have htok : tok = [] := List.suffix_nil.mp hsuf
      subst htok
      rfl
    · rw [expandGo_single] at h
      simp only [Except.ok.injEq, Prod.mk.injEq] at h
      obtain ⟨rfl, rfl⟩ := h
      exact listContains_iff.mpr hsuf.isInfix
    · by_cases hcc : c = '{' ∧ c2 = '{'
      · obtain ⟨rfl, rfl⟩ := hcc
        rw [expandGo] at h
        cases hmc : matchClose rest 0 with
        | none =>
          simp only [hmc] at h
          simp only [Except.ok.injEq, Prod.mk.injEq] at h
          obtain ⟨rfl, rfl⟩ := h
          exact listContains_iff.mpr hsuf.isInfix
        | some pr =>
          obtain ⟨content, r⟩ := pr
          simp only [hmc] at h
          have hrest : rest = content ++ '}' :: '}' :: r := matchClose_eq rest 0 content r hmc
          subst hrest
          have hsufr : tok <:+ r := by
            by_cases hlen : tok.length ≤ r.length
            · refine suffix_of_suffix_length_le hsuf ?_ hlen
              exact ⟨'{' :: '{' :: content ++ ['}', '}'], by simp⟩
            · exfalso
              push_neg at hlen
              obtain ⟨w, hw⟩ := hsuf
              have hlens : w.length + tok.length = content.length + r.length + 4 := by
                have := congrArg List.length hw
                simpa using this
              have hA : '{' :: '{' :: (content ++ '}' :: '}' :: r)
                  = ('{' :: '{' :: content ++ ['}']) ++ '}' :: r := by simp
              have hAlen : ('{' :: '{' :: content ++ ['}']).length = content.length + 3 := by
                simp
              have hget1 : ('{' :: '{' :: (content ++ '}' :: '}' :: r))[content.length + 3]? = some '}' := by
                rw [hA, show content.length + 3 = ('{' :: '{' :: content ++ ['}']).length from hAlen.symm,
                  List.getElem?_append_right (le_refl _)]
                simp
              have hget2 : (w ++ tok)[content.length + 3]? = some '}' := by
                rw [hw]
                exact hget1
              rw [List.getElem?_append_right (by omega)] at hget2
              exact h2 (List.getElem?_mem hget2)
          by_cases hext : "ext:".data.isPrefixOf content = true
          · rw [if_pos hext] at h
            cases hsp : splitExt content with
            | none =>
              simp only [hsp] at h
              exact Except.noConfusion h
            | some trip =>
              obtain ⟨name, op, value⟩ := trip
              simp only [hsp] at h
              cases hv : expandGo dd vs inp f value with
              | error e =>
                simp only [hv] at h
                exact Except.noConfusion h
              | ok pr2 =>
                obtain ⟨ev, innerCalls⟩ := pr2
                simp only [hv] at h
                cases hd : dd name op (strReplaceAll ⟨ev⟩ inputSentinel inp) with
                | error e =>
                  simp only [hd] at h
                  exact Except.noConfusion h
                | ok outS =>
                  simp only [hd] at h
                  cases ht : expandGo dd vs inp f r with
                  | error e =>
                    simp only [ht] at h
                    exact Except.noConfusion h
                  | ok pr3 =>
                    obtain ⟨tail, tailCalls⟩ := pr3
                    simp only [ht] at h
                    simp only [Except.ok.injEq, Prod.mk.injEq] at h
                    obtain ⟨rfl, rfl⟩ := h
                    exact listContains_append_right _ (ih r tail tailCalls hsufr ht)
          · rw [if_neg (by simpa using hext)] at h
            cases ht : expandGo dd vs inp f r with
            | error e =>
              simp only [ht] at h
              exact Except.noConfusion h
            | ok pr3 =>
              obtain ⟨tail, tailCalls⟩ := pr3
              simp only [ht] at h
              simp only [Except.ok.injEq, Prod.mk.injEq] at h
              obtain ⟨rfl, rfl⟩ := h
              exact listContains_append_right _ (ih r tail tailCalls hsufr ht)
      · rcases List.suffix_cons_iff.mp hsuf with heq | hsuf'
        · have hnb : '{' ∉ (c :: c2 :: rest) := heq ▸ h1
          rw [expandGo_no_brace dd vs inp (f + 1) _ hnb] at h
          simp only [Except.ok.injEq, Prod.mk.injEq] at h
          obtain ⟨rfl, rfl⟩ := h
          exact listContains_iff.mpr hsuf.isInfix
        · have hunf : expandGo dd vs inp (f + 1) (c :: c2 :: rest)
              = match expandGo dd vs inp f (c2 :: rest) with
                | .error e => .error e
                | .ok (tail, tailCalls) => .ok (c :: tail, tailCalls) := by
            rcases not_and_or.mp hcc with hc | hc2
            · exact expandGo_cons_of_ne dd vs inp f c hc (c2 :: rest)
            · exact expandGo_cons_of_snd_ne dd vs inp f c c2 hc2 rest
          rw [hunf] at h
          cases ht : expandGo dd vs inp f (c2 :: rest) with
          | error e =>
            simp only [ht] at h
            exact Except.noConfusion h
          | ok pr =>
            obtain ⟨tail, tailCalls⟩ := pr
            simp only [ht] at h
            simp only [Except.ok.injEq, Prod.mk.injEq] at h
            obtain ⟨rfl, rfl⟩ := h
            have hct := ih (c2 :: rest) tail tailCalls hsuf' ht
            rw [listContains, hct]
            simp

theorem listContains_nil_pat (a : List Char) : listContains [] a = true := by
  cases a <;> rfl

theorem replaceGo_nil (pat rep : List Char) (fuel : Nat) :
    replaceGo pat rep fuel [] = [] := by
  cases fuel <;> rfl

/-- An occurrence of `pat` in `a ++ b` either lies entirely inside `a` or
touches a character of `b`. -/
theorem listContains_append_cases {pat a b : List Char}
    (h : listContains pat (a ++ b) = true) :
    listContains pat a = true ∨ ∃ c, c ∈ pat ∧ c ∈ b := by
  by_cases hpat : pat = []
  · subst hpat
    exact Or.inl (listContains_nil_pat a)
  obtain ⟨x, y, hxy⟩ := listContains_iff.mp h
  by_cases hle : x.length + pat.length ≤ a.length
  · left
    rw [listContains_iff]
    have hxa : x.length ≤ a.length := by omega
    have hd : List.drop x.length (a ++ b) = pat ++ y := by
      rw [← hxy, List.append_assoc, List.drop_left]
    have hd2 : List.drop x.length (a ++ b) = List.drop x.length a ++ b :=
      List.drop_append_of_le_length hxa
    have hpre : pat <+: List.drop x.length a := by
      have hp1 : pat <+: List.drop x.length a ++ b := by
        rw [← hd2, hd]
        exact List.prefix_append _ _
      refine List.prefix_of_prefix_length_le hp1 (List.prefix_append _ _) ?_
      rw [List.length_drop]
      omega
    exact List.infix_iff_prefix_suffix.mpr ⟨_, hpre, List.drop_suffix _ _⟩
  · right
    push_neg at hle
    have hplen : 0 < pat.length := List.length_pos.mpr hpat
    by_cases hxa : x.length ≤ a.length
    · have hj : a.length - x.length < pat.length := by omega
      have hpy : (a ++ b)[a.length]? = pat[a.length - x.length]? := by
        rw [← hxy]
        have hidx : a.length = x.length + (a.length - x.length) := by omega
        rw [hidx, List.append_assoc,
          List.getElem?_append_right (Nat.le_add_right x.length _)]
        simp only [Nat.add_sub_cancel_left]
        rw [List.getElem?_append]
        simp [hj]
      have hb : (a ++ b)[a.length]? = b[0]? := by
        rw [List.getElem?_append_right (le_refl _)]
        simp
      obtain ⟨cc, hcc⟩ : ∃ cc, pat[a.length - x.length]? = some cc :=
        ⟨_, List.getElem?_eq_getElem hj⟩
      refine ⟨cc, List.getElem?_mem hcc, ?_⟩
      have hb0 : b[0]? = some cc := by
        rw [← hb, hpy, hcc]
      exact List.getElem?_mem hb0
    · push_neg at hxa
      have hpy : (a ++ b)[x.length]? = pat[0]? := by
        rw [← hxy, List.append_assoc, List.getElem?_append_right (le_refl _)]
        simp only [Nat.sub_self]
        rw [List.getElem?_append]
        simp [hplen]
      have hb : (a ++ b)[x.length]? = b[x.length - a.length]? :=
        List.getElem?_append_right (by omega)
      obtain ⟨cc, hcc⟩ : ∃ cc, pat[0]? = some cc :=
        ⟨_, List.getElem?_eq_getElem hplen⟩
      refine ⟨cc, List.getElem?_mem hcc, ?_⟩
      have hb0 : b[x.length - a.length]? = some cc := by
        rw [← hb, hpy, hcc]
      exact List.getElem?_mem hb0

theorem charListLe_total : ∀ a b : List Char,
    charListLe a b = true ∨ charListLe b a = true := by
  intro a
  induction a with
  | nil => intro b; left; rfl
  | cons x xs ih =>
    intro b
    cases b with
    | nil => right; rfl
    | cons y ys =>
      rcases lt_trichotomy x y with hxy | hxy | hxy
      · left
        rw [charListLe, if_pos hxy]
      · subst hxy
        rcases ih ys with h | h
        · left
          rw [charListLe, if_neg (lt_irrefl x), if_neg (lt_irrefl x)]
          exact h
        · right
          rw [charListLe, if_neg (lt_irrefl x), if_neg (lt_irrefl x)]
          exact h
      · right
        rw [charListLe, if_pos hxy]

theorem charListLe_trans : ∀ a b c : List Char,
    charListLe a b = true → charListLe b c = true → charListLe a c = true := by
  intro a
  induction a with
  | nil => intro b c _ _; rfl
  | cons x xs ih =>
    intro b c hab hbc
    cases b with
    | nil => simp [charListLe] at hab
    | cons y ys =>
      cases c with
      | nil => simp [charListLe] at hbc
      | cons z zs =>
        rw [charListLe] at hab hbc ⊢
        rcases lt_trichotomy x y with hxy | hxy | hxy
        · rcases lt_trichotomy y z with hyz | hyz | hyz
          · rw [if_pos (lt_trans hxy hyz)]
          · subst hyz
            rw [if_pos hxy]
          · rw [if_pos hyz] at hbc
            rw [if_neg (lt_asymm hyz)] at hbc
            exact absurd hbc (by simp)
        · subst hxy
          rcases lt_trichotomy x z with hxz | hxz | hxz
          · rw [if_pos hxz]
          · subst hxz
            rw [if_neg (lt_irrefl x), if_neg (lt_irrefl x)] at hab hbc ⊢
            exact ih ys zs hab hbc
          · rw [if_neg (lt_asymm hxz), if_pos hxz] at hbc
            exact absurd hbc (by simp)
        · rw [if_neg (lt_asymm hxy), if_pos hxy] at hab
          exact absurd hab (by simp)

theorem strLe_total (a b : String) : strLe a b = true ∨ strLe b a = true :=
  charListLe_total a.data b.data

theorem strLe_trans {a b c : String} (hab : strLe a b = true)
    (hbc : strLe b c = true) : strLe a c = true :=
  charListLe_trans a.data b.data c.data hab hbc

/-- When the pattern text lacks the input placeholder, `ensureInput`
appends it on its own line: the result decomposes as the original text
(up to a supplied line break) followed by a line break and the
placeholder, and the part before the placeholder still does not contain
the placeholder. -/
theorem ensureInput_decomp {text : String}
    (h : strContains text "{{input}}" = false) :
    ∃ q : List Char, (ensureInput text).data = q ++ '\n' :: "{{input}}".data ∧
      listContains "{{input}}".data q = false := by
  rw [ensureInput, if_neg (by rw [h]; exact Bool.false_ne_true)]
  by_cases hend : strEndsWith text "\n" = true
  · rw [if_pos hend]
    rw [strEndsWith, List.isSuffixOf_iff_suffix] at hend
    obtain ⟨w, hwdec⟩ := hend
    refine ⟨w, ?_, ?_⟩
    · show (text ++ "{{input}}").data = _
      show text.data ++ "{{input}}".data = _
      rw [← hwdec]
      simp
    · by_cases hc : listContains "{{input}}".data w = true
      · exfalso
        have hmono : listContains "{{input}}".data (w ++ "\n".data) = true :=
          listContains_append_left "\n".data hc
        rw [hwdec] at hmono
        rw [strContains, hmono] at h
        exact absurd h (by simp)
      · simp only [Bool.not_eq_true] at hc
        exact hc
  · rw [if_neg hend]
    refine ⟨text.data, ?_, h⟩
    show (text ++ "\n" ++ "{{input}}").data = _
    show (text ++ "\n").data ++ "{{input}}".data = _
    show text.data ++ "\n".data ++ "{{input}}".data = _
    simp

/-- Sentinel substitution on a pattern text lacking the input placeholder
leaves the sentinel as a suffix of the produced text. -/
theorem withSentinel_suffix {text : String}
    (h : strContains text "{{input}}" = false) :
    inputSentinel.data <:+
      (strReplaceAll (ensureInput text) "{{input}}" inputSentinel).data := by
  obtain ⟨q, hq1, hq2⟩ := ensureInput_decomp h
  rw [strReplaceAll, if_neg (by decide)]
  show inputSentinel.data <:+ replaceGo "{{input}}".data inputSentinel.data
      (ensureInput text).data.length (ensureInput text).data
  rw [hq1]
  have hlen : (q ++ '\n' :: "{{input}}".data).length
      = q.length + 1 + "{{input}}".data.length := by
    simp only [List.length_append, List.length_cons]
    omega
  rw [replaceGo_append_sep "{{input}}".data inputSentinel.data "{{input}}".data
    (by decide) (by decide) hq2 _ (le_of_eq rfl)]
  have hf2 : (q ++ '\n' :: "{{input}}".data).length - (q.length + 1)
      = "{{input}}".data.length := by
    rw [hlen]
    omega
  rw [hf2]
  have hhm := replaceGo_head_match "{{input}}".data inputSentinel.data []
    (by decide) "{{input}}".data.length (by simp)
  rw [List.append_nil] at hhm
  rw [hhm, replaceGo_nil, List.append_nil]
  exact ⟨q ++ ['\n'], by simp⟩

/-- If the scanned string contains the pattern, the replacement result
contains the replacement string. -/
theorem strReplaceAll_contains {s pat rep : String}
    (hpat : pat.data ≠ [])
    (h : listContains pat.data s.data = true) :
    strContains (strReplaceAll s pat rep) rep = true := by
  rw [strReplaceAll, if_neg (by simpa using hpat)]
  obtain ⟨x, y, hxy⟩ := replaceGo_contains pat.data rep.data hpat
    s.data.length s.data (le_refl _) h
  rw [strContains]
  show listContains rep.data (replaceGo pat.data rep.data s.data.length s.data) = true
  rw [hxy, listContains_iff]
  exact ⟨x, y, by simp⟩

/-- C3: for a path-like identifier whose file cannot be read, `getFromFile`
produces an `IOError`-style message, but `loadPattern` discards it
(`pattern, _ = o.getFromFile(absPath)` in the source) and returns a `nil`
pattern with a `nil` error, after which both public operations dereference
the `nil` pattern instead of returning the error the spec requires. -/
theorem getFromFile_error_discarded :
    getFromFile none emptyFS "/missing/pat.md"
      = (none, some "could not read pattern file /missing/pat.md") ∧
    loadPattern oPat none emptyFS "/missing/pat.md" = (none, none) ∧
    GetApplyVariables oPat none emptyFS echoDispatch "/missing/pat.md" [] "text" = none ∧
    GetWithoutVariables oPat none emptyFS "/missing/pat.md" "text" = none :=
  ⟨rfl, rfl, rfl, rfl⟩

/-- C4: for every path-like identifier (leading `/`) whose file cannot be
read, `loadPattern` returns a `nil` pattern together with a `nil` error,
and `GetApplyVariables` / `GetWithoutVariables` then dereference that `nil`
pattern (modelled by the `none` result, a runtime panic in Go) instead of
returning an error: the public operations are not total over such
inputs. -/
theorem loadPattern_nil_nil_panics (o : PatternsEntity) (homedir : Option String)
    (fs : FS) (dispatch : String → String → String → Except String String)
    (source : String) (vars : List (String × String)) (input : String)
    (hpath : strStartsWith source "/" = true)
    (hmiss : fs source = none) :
    loadPattern o homedir fs source = (none, none) ∧
    GetApplyVariables o homedir fs dispatch source vars input = none ∧
    GetWithoutVariables o homedir fs source input = none := by
  obtain ⟨t, ht⟩ : ∃ t, source.data = '/' :: t := by
    rw [strStartsWith] at hpath
    obtain ⟨t, ht⟩ := ( List.isPrefixOf_iff_prefix).mp hpath
    exact ⟨t, by simpa using ht.symm⟩
  have hnotilde : strStartsWith source "~" = false := by
    rw [strStartsWith, ht]
    simp [List.isPrefixOf]
  have hnotildeslash : strStartsWith source "~/" = false := by
    rw [strStartsWith, ht]
    simp [List.isPrefixOf]
  have habs : GetAbsolutePath homedir source = .ok source := by
    rw [GetAbsolutePath.eq_def, hnotilde]
    simp
  have hgff : getFromFile homedir fs source
      = (none, some ("could not read pattern file " ++ source)) := by
    rw [getFromFile.eq_def, hnotildeslash]
    simp [hmiss]
  have hload : loadPattern o homedir fs source = (none, none) := by
    rw [loadPattern]
    simp [hpath, habs, hgff]
  refine ⟨hload, ?_, ?_⟩
  · rw [GetApplyVariables, hload]
  · rw [GetWithoutVariables, hload]

/-- C4 witness. -/
theorem loadPattern_nil_nil_panics_witness :
    loadPattern oPat none emptyFS "/nope/p.md" = (none, none) ∧
    GetApplyVariables oPat none emptyFS echoDispatch "/nope/p.md" [] "x" = none ∧
    GetWithoutVariables oPat none emptyFS "/nope/p.md" "x" = none :=
  loadPattern_nil_nil_panics oPat none emptyFS echoDispatch "/nope/p.md" [] "x"
    (by decide) rfl

/-- C6: a bare pattern name present in both the configured custom override
directory and the default directory resolves to the override directory's
content, and a name readable in neither directory is a not-found error. -/
theorem getFromDB_override_precedence (o : PatternsEntity) (name : String)
    (hcfg : o.CustomPatternsDir ≠ "") :
    (∀ (fs : FS) (c1 c2 : String), c1 ≠ c2 →
        fs (pathJoin (pathJoin o.CustomPatternsDir name) o.SystemPatternFile) = some c1 →
        fs (pathJoin (pathJoin o.storage.Dir name) o.SystemPatternFile) = some c2 →
        getFromDB o fs name = (some ⟨name, "", c1⟩, none)) ∧
    (∀ fs : FS,
        fs (pathJoin (pathJoin o.CustomPatternsDir name) o.SystemPatternFile) = none →
        fs (pathJoin (pathJoin o.storage.Dir name) o.SystemPatternFile) = none →
        getFromDB o fs name
          = (none, some ("open " ++ pathJoin (pathJoin o.storage.Dir name) o.SystemPatternFile
              ++ ": no such file or directory"))) := by
  constructor
  · intro fs c1 c2 hne hcust hmain
    rw [getFromDB]
    simp only [hcust, if_pos hcfg]
  · intro fs hcust hmain
    rw [getFromDB]
    simp only [hcust, hmain, if_pos hcfg]

/-- C6 witness. -/
theorem getFromDB_override_precedence_witness :
    getFromDB { oPat with CustomPatternsDir := "custom" }
        (fun p => if p = "custom/p/system.md" then some "OVERRIDE"
          else if p = "patterns/p/system.md" then some "DEFAULT" else none) "p"
      = (some ⟨"p", "", "OVERRIDE"⟩, none) ∧
    getFromDB { oPat with CustomPatternsDir := "custom" } emptyFS "p"
      = (none, some "open patterns/p/system.md: no such file or directory") := by
  constructor
  · exact (getFromDB_override_precedence { oPat with CustomPatternsDir := "custom" } "p"
      (by decide)).1 _ "OVERRIDE" "DEFAULT" (by decide) (by decide) (by decide)
  · exact (getFromDB_override_precedence { oPat with CustomPatternsDir := "custom" } "p"
      (by decide)).2 _ (by decide) (by decide)

/-- C10: the Storage-interface `Get` runs the full resolution pipeline with
no variables and empty input; in particular the synthesized input
placeholder resolves to the empty string while extension calls are still
dispatched. -/
theorem get_is_getApplyVariables_empty :
    (∀ (o : PatternsEntity) (homedir : Option String) (fs : FS)
        (dispatch : String → String → String → Except String String) (name : String),
        Get o homedir fs dispatch name
          = GetApplyVariables o homedir fs dispatch name [] "") ∧
    Get oPat none fsGreet echoDispatch "greet"
      = some (some ⟨"greet", "", "Say: world\n"⟩, none, [("greet", "hello", "world")]) :=
  ⟨fun _ _ _ _ _ => rfl, rfl⟩

/-- C9: listing pattern names.  With both directories readable the result
is the sorted deduplicated union of the default-directory and
override-directory names; an override-directory read failure is swallowed
(the default names alone are returned, still sorted and deduplicated); a
default-directory read failure propagates as an error.  The function is a
pure map of the directory listing, so repeated calls with an unchanged
filesystem return identical sequences. -/
theorem getNames_union_sorted (o : PatternsEntity) :
    (∀ (dirs : DirFS) (mains customs : List String), o.CustomPatternsDir ≠ "" →
        dirs o.storage.Dir = some mains → dirs o.CustomPatternsDir = some customs →
        o.GetNames dirs = .ok (sortStrings (mains ++ customs).dedup)
          ∧ List.Sorted (fun a b => strLe a b = true) (sortStrings (mains ++ customs).dedup)
          ∧ (sortStrings (mains ++ customs).dedup).Nodup
          ∧ (∀ n, n ∈ sortStrings (mains ++ customs).dedup ↔ n ∈ mains ∨ n ∈ customs)) ∧
    (∀ (dirs : DirFS) (mains : List String), o.CustomPatternsDir ≠ "" →
        dirs o.storage.Dir = some mains → dirs o.CustomPatternsDir = none →
        o.GetNames dirs = .ok (sortStrings mains.dedup)
          ∧ List.Sorted (fun a b => strLe a b = true) (sortStrings mains.dedup)
          ∧ (sortStrings mains.dedup).Nodup
          ∧ (∀ n, n ∈ sortStrings mains.dedup ↔ n ∈ mains)) ∧
    (∀ dirs : DirFS, dirs o.storage.Dir = none →
        o.GetNames dirs = .error ("could not read directory " ++ o.storage.Dir)) := by
  have hsorted : ∀ l : List String,
      List.Sorted (fun a b => strLe a b = true) (sortStrings l) :=
    fun l => @List.sorted_insertionSort String (fun a b => strLe a b = true) _
      ⟨strLe_total⟩ ⟨fun _ _ _ hab hbc => strLe_trans hab hbc⟩ l
  have hperm : ∀ l : List String, (sortStrings l).Perm l :=
    fun l => List.perm_insertionSort _ l
  refine ⟨?_, ?_, ?_⟩
  · intro dirs mains customs hcfg hmain hcust
    refine ⟨?_, hsorted _, ?_, ?_⟩
    · rw [PatternsEntity.GetNames, StorageEntity.GetNames, hmain]
      simp only [if_pos hcfg]
      rw [StorageEntity.GetNames]
      simp only [hcust]
    · exact ((hperm _).symm).nodup (List.nodup_dedup _)
    · intro n
      rw [(hperm _).mem_iff, List.mem_dedup, List.mem_append]
  · intro dirs mains hcfg hmain hcust
    refine ⟨?_, hsorted _, ?_, ?_⟩
    · rw [PatternsEntity.GetNames, StorageEntity.GetNames, hmain]
      simp only [if_pos hcfg]
      rw [StorageEntity.GetNames]
      simp only [hcust]
    · exact ((hperm _).symm).nodup (List.nodup_dedup _)
    · intro n
      rw [(hperm _).mem_iff, List.mem_dedup]
  · intro dirs hmain
    rw [PatternsEntity.GetNames, StorageEntity.GetNames, hmain]

/-- C9 witness. -/
theorem getNames_union_sorted_witness :
    PatternsEntity.GetNames { oPat with CustomPatternsDir := "custom" }
        (fun d => if d = "patterns" then some ["b", "a", "b"]
          else if d = "custom" then some ["c", "a"] else none)
      = .ok ["a", "b", "c"] ∧
    PatternsEntity.GetNames { oPat with CustomPatternsDir := "custom" }
        (fun d => if d = "patterns" then some ["b", "a"] else none)
      = .ok ["a", "b"] ∧
    PatternsEntity.GetNames { oPat with CustomPatternsDir := "custom" }
        (fun d => if d = "custom" then some ["c"] else none)
      = .error "could not read directory patterns" := by
  refine ⟨?_, ?_, ?_⟩
  · have h := ((getNames_union_sorted
      { oPat with CustomPatternsDir := "custom" }).1
      (fun d => if d = "patterns" then some ["b", "a", "b"]
        else if d = "custom" then some ["c", "a"] else none)
      ["b", "a", "b"] ["c", "a"] (by decide) (by decide) (by decide)).1
    exact h.trans (by rfl)
  · have h := ((getNames_union_sorted
      { oPat with CustomPatternsDir := "custom" }).2.1
      (fun d => if d = "patterns" then some ["b", "a"] else none)
      ["b", "a"] (by decide) (by decide) (by decide)).1
    exact h.trans (by rfl)
  · exact (getNames_union_sorted { oPat with CustomPatternsDir := "custom" }).2.2
      (fun d => if d = "custom" then some ["c"] else none) (by decide)

/-- Replacement in a text of the shape `q ++ c :: pat` where the pattern
occurs exactly once, at the very end, behind a separating character that
does not belong to it: only that final occurrence is replaced. -/
theorem strReplaceAll_boundary (q : List Char) (c : Char) (pat rep : String)
    (hpat : pat.data ≠ []) (hc : c ∉ pat.data)
    (hq : listContains pat.data q = false) :
    strReplaceAll ⟨q ++ c :: pat.data⟩ pat rep = ⟨q ++ c :: rep.data⟩ := by
  rw [strReplaceAll, if_neg (by simpa using hpat)]
  refine congrArg String.mk ?_
  show replaceGo pat.data rep.data (q ++ c :: pat.data).length (q ++ c :: pat.data)
      = q ++ c :: rep.data
  rw [replaceGo_append_sep pat.data rep.data pat.data hpat hc hq _ (le_refl _)]
  have hf2 : (q ++ c :: pat.data).length - (q.length + 1) = pat.data.length := by
    simp only [List.length_append, List.length_cons]
    omega
  rw [hf2]
  have hhm := replaceGo_head_match pat.data rep.data [] hpat pat.data.length (by simp)
  rw [List.append_nil] at hhm
  rw [hhm, replaceGo_nil, List.append_nil]

/-- C2: input is never re-expanded.  For every dispatcher, variable mapping
and input string — including inputs that themselves look like placeholders
or extension calls — resolving the pattern `"Test: {{input}}"` emits the
input verbatim in the final text, performs no dispatcher invocation, and
succeeds. -/
theorem input_never_reinterpreted
    (dispatch : String → String → String → Except String String)
    (vars : List (String × String)) (input : String) :
    GetApplyVariables oPat none fsTest dispatch "test" vars input
      = some (some ⟨"test", "", "Test: " ++ input⟩, none, []) := by
  have hload : loadPattern oPat none fsTest "test"
      = (some ⟨"test", "", "Test: {{input}}"⟩, none) := rfl
  have hens : ensureInput "Test: {{input}}" = "Test: {{input}}" := by
    rw [ensureInput, if_pos (by decide)]
  have hsent : strReplaceAll "Test: {{input}}" "{{input}}" inputSentinel
      = "Test: __FABRIC_INPUT_SENTINEL_TOKEN__" := by decide
  have happ : ApplyTemplate dispatch "Test: __FABRIC_INPUT_SENTINEL_TOKEN__" vars input
      = .ok ("Test: __FABRIC_INPUT_SENTINEL_TOKEN__", []) := by
    simp only [ApplyTemplate]
    rw [expandGo_no_brace dispatch vars input _ _ (by decide)]
  have hfinal : strReplaceAll "Test: __FABRIC_INPUT_SENTINEL_TOKEN__" inputSentinel input
      = "Test: " ++ input := by
    have hb := strReplaceAll_boundary "Test:".data ' ' inputSentinel input
      (by decide) (by decide) (by decide)
    show strReplaceAll ⟨"Test:".data ++ ' ' :: inputSentinel.data⟩ inputSentinel input
        = "Test: " ++ input
    rw [hb]
    refine congrArg String.mk ?_
    show "Test:".data ++ ' ' :: input.data = "Test: ".data ++ input.data
    rfl
  simp only [GetApplyVariables, hload, applyVariables, hens, hsent, happ, hfinal]

/-- Unfolding of `matchClose` on a head character that is not a brace. -/
theorem matchClose_cons_generic (c : Char) (rest : List Char) (d : Nat)
    (hc1 : c ≠ '{') (hc2 : c ≠ '}') :
    matchClose (c :: rest) d
      = match matchClose rest d with
        | some (cs, r) => some (c :: cs, r)
        | none => none := by
  rw [matchClose.eq_def]
  split
  · rename_i heq
    simp at heq
  · rename_i heq
    rw [List.cons.injEq] at heq
    exact absurd heq.1 hc1
  · rename_i heq
    rw [List.cons.injEq] at heq
    exact absurd heq.1 hc2
  · rename_i heq
    rw [List.cons.injEq] at heq
    exact absurd heq.1 hc2
  · rename_i c2 rest2 d2 h1 h2 h3 heq hd
    rw [List.cons.injEq] at h3
    obtain ⟨rfl, rfl⟩ := h3
    rfl

/-- Running `matchClose` on brace-free content directly followed by the closing
braces finds exactly that content. -/
theorem matchClose_no_brace (content r : List Char)
    (h1 : '{' ∉ content) (h2 : '}' ∉ content) :
    matchClose (content ++ '}' :: '}' :: r) 0 = some (content, r) := by
  induction content with
  | nil => rw [List.nil_append, matchClose]
  | cons c cs ih =>
    have hc1 : c ≠ '{' := fun hx => h1 (hx ▸ List.mem_cons_self c cs)
    have hc2 : c ≠ '}' := fun hx => h2 (hx ▸ List.mem_cons_self c cs)
    rw [List.cons_append, matchClose_cons_generic c _ 0 hc1 hc2,
      ih (fun hx => h1 (List.mem_cons_of_mem c hx))
        (fun hx => h2 (List.mem_cons_of_mem c hx))]

/-- Function `splitColon` splits at the first colon. -/
theorem splitColon_no_colon (a b : List Char) (ha : ':' ∉ a) :
    splitColon (a ++ ':' :: b) = some (a, b) := by
  induction a with
  | nil =>
    rw [List.nil_append, splitColon]
    simp
  | cons c cs ih =>
    have hc : c ≠ ':' := fun hx => ha (hx ▸ List.mem_cons_self c cs)
    rw [List.cons_append, splitColon, if_neg hc,
      ih (fun hx => ha (List.mem_cons_of_mem c hx))]

/-- Running `splitExt` on a well-formed extension placeholder content recovers the
name, operation and value segments. -/
theorem splitExt_eq (name op : String) (value : List Char)
    (hn : ':' ∉ name.data) (ho : ':' ∉ op.data) :
    splitExt ("ext:".data ++ (name.data ++ (':' :: (op.data ++ (':' :: value)))))
      = some (name, op, value) := by
  rw [splitExt, if_pos]
  · have hdrop : ("ext:".data ++ (name.data ++ (':' :: (op.data ++ (':' :: value))))).drop 4
        = name.data ++ (':' :: (op.data ++ (':' :: value))) := by
      rw [show (4 : Nat) = "ext:".data.length from rfl, List.drop_left]
    rw [hdrop]
    simp only [splitColon_no_colon name.data _ hn]
    simp only [splitColon_no_colon op.data _ ho]
  · rw [ List.isPrefixOf_iff_prefix]
    exact List.prefix_append _ _

/-- Expansion of a text that consists of a single well-formed extension
placeholder whose value contains no opening brace: the value (with the
sentinel resolved to the input) is handed to the dispatcher, the
dispatcher's output is the whole result, and exactly one invocation is
recorded. -/
theorem expandGo_single_ext (dd : String → String → String → Except String String)
    (vs : List (String × String)) (inp : String) (name op : String)
    (value : List Char) (fuel : Nat)
    (hn1 : ':' ∉ name.data) (ho1 : ':' ∉ op.data)
    (hfree1 : '{' ∉ "ext:".data ++ (name.data ++ (':' :: (op.data ++ (':' :: value)))))
    (hfree2 : '}' ∉ "ext:".data ++ (name.data ++ (':' :: (op.data ++ (':' :: value))))) :
    expandGo dd vs inp (fuel + 1)
        ('{' :: '{' :: (("ext:".data ++ (name.data ++ (':' :: (op.data ++ (':' :: value)))))
          ++ '}' :: '}' :: []))
      = match dd name op (strReplaceAll ⟨value⟩ inputSentinel inp) with
        | .error e => .error ("extension " ++ name ++ ":" ++ op ++ ": " ++ e)
        | .ok out =>
            .ok (out.data, [(name, op, strReplaceAll ⟨value⟩ inputSentinel inp)]) := by
  have hval : '{' ∉ value := fun hx => hfree1 (by simp [hx])
  have hpre : "ext:".data.isPrefixOf
      ("ext:".data ++ (name.data ++ (':' :: (op.data ++ (':' :: value))))) = true := by
    rw [ List.isPrefixOf_iff_prefix]
    exact List.prefix_append _ _
  rw [expandGo]
  simp only [matchClose_no_brace _ _ hfree1 hfree2]
  rw [if_pos hpre]
  simp only [splitExt_eq name op value hn1 ho1]
  simp only [expandGo_no_brace dd vs inp fuel value hval]
  simp only [expandGo_nil]
  cases hdd : dd name op (strReplaceAll ⟨value⟩ inputSentinel inp) with
  | error e => simp only [hdd]
  | ok out => simp only [hdd, List.append_nil, List.nil_append]

/-- Scanning a list in which the pattern does not occur replaces
nothing. -/
theorem replaceGo_not_contains (pat rep : List Char) :
    ∀ fuel s, listContains pat s = false → replaceGo pat rep fuel s = s := by
  intro fuel
  induction fuel with
  | zero => intro s _; cases s <;> rfl
  | succ f ih =>
    intro s hs
    cases s with
    | nil => rfl
    | cons c rest =>
      rw [listContains, Bool.or_eq_false_iff] at hs
      rw [replaceGo, hs.1]
      simp only [Bool.false_eq_true, if_false]
      rw [ih rest hs.2]

/-- The placeholder `{{input}}` does not occur in the head part
`{{ext:name:op` of an extension placeholder whose name and operation
contain no opening brace. -/
theorem extHead_no_input (nd od : List Char) (hn : '{' ∉ nd) (ho : '{' ∉ od) :
    listContains "{{input}}".data
      ('{' :: '{' :: 'e' :: 'x' :: 't' :: ':' :: (nd ++ ':' :: od)) = false := by
  by_cases h : listContains "{{input}}".data
      ('{' :: '{' :: 'e' :: 'x' :: 't' :: ':' :: (nd ++ ':' :: od)) = true
  · exfalso
    obtain ⟨x, y, hxy⟩ := listContains_iff.mp h
    rcases x with _ | ⟨x1, _ | ⟨x2, x3⟩⟩
    · rw [List.nil_append] at hxy
      have : 'i' = 'e' := by
        have h2 := congrArg (fun l => l[2]?) hxy
        simpa using h2
      simp at this
    · have : 'i' = 'x' := by
        have h2 := congrArg (fun l => l[3]?) hxy
        simpa using h2
      simp at this
    · have hbrace : '{' ∈ 'e' :: 'x' :: 't' :: ':' :: (nd ++ ':' :: od) := by
        have hx2 : x1 :: x2 :: (x3 ++ "{{input}}".data ++ y)
            = '{' :: '{' :: ('e' :: 'x' :: 't' :: ':' :: (nd ++ ':' :: od)) := by
          simpa using hxy
        rw [List.cons.injEq, List.cons.injEq] at hx2
        obtain ⟨-, -, htail⟩ := hx2
        rw [← htail]
        have : '{' ∈ "{{input}}".data := by decide
        simp [this]
      simp only [List.mem_cons, List.mem_append] at hbrace
      rcases hbrace with h1 | h1 | h1 | h1 | h1
      · simp at h1
      · simp at h1
      · simp at h1
      · simp at h1
      · rcases h1 with h1 | h1 | h1
        · exact hn h1
        · simp at h1
        · exact ho h1
  · simpa using h

/-- Replacing the sentinel inside a text that is exactly the sentinel
yields the replacement. -/
theorem strReplaceAll_sentinel_self (rep : String) :
    strReplaceAll ⟨inputSentinel.data⟩ inputSentinel rep = rep := by
  rw [strReplaceAll, if_neg (by decide)]
  have hhm := replaceGo_head_match inputSentinel.data rep.data [] (by decide)
    inputSentinel.data.length (by simp)
  rw [List.append_nil] at hhm
  show String.mk (replaceGo inputSentinel.data rep.data
      inputSentinel.data.length inputSentinel.data) = rep
  rw [hhm, replaceGo_nil, List.append_nil]

/-- Sentinel substitution on a pattern that is a single extension call
whose value is the reserved input placeholder: only that placeholder is
replaced, producing the extension call with the sentinel as its value. -/
theorem sentinelize_ext_pattern (name op : String)
    (hn : '{' ∉ name.data) (ho : '{' ∉ op.data) :
    strReplaceAll (extInputPattern name op) "{{input}}" inputSentinel
      = ⟨'{' :: '{' :: (("ext:".data ++ (name.data ++ (':' :: (op.data
          ++ (':' :: inputSentinel.data))))) ++ '}' :: '}' :: [])⟩ := by
  have hdata : (extInputPattern name op).data
      = ('{' :: '{' :: 'e' :: 'x' :: 't' :: ':' :: (name.data ++ ':' :: op.data))
        ++ ':' :: ("{{input}}".data ++ ['}', '}']) := by
    show "\x7b\x7bext:".data ++ name.data ++ ":".data ++ op.data
        ++ ":\x7b\x7binput\x7d\x7d\x7d\x7d".data = _
    simp [List.append_assoc]
  rw [strReplaceAll, if_neg (by decide)]
  refine String.ext ?_
  show replaceGo "{{input}}".data inputSentinel.data
      (extInputPattern name op).data.length
      (extInputPattern name op).data = _
  rw [hdata]
  rw [replaceGo_append_sep "{{input}}".data inputSentinel.data
    ("{{input}}".data ++ ['}', '}']) (by decide) (by decide)
    (extHead_no_input name.data op.data hn ho) _ (le_refl _)]
  have hf2 : (('{' :: '{' :: 'e' :: 'x' :: 't' :: ':' :: (name.data ++ ':' :: op.data))
        ++ ':' :: ("{{input}}".data ++ ['}', '}'])).length
      - (('{' :: '{' :: 'e' :: 'x' :: 't' :: ':' :: (name.data ++ ':' :: op.data)).length + 1)
      = ("{{input}}".data ++ ['}', '}']).length := by
    simp only [List.length_append, List.length_cons]
    omega
  rw [hf2]
  rw [replaceGo_head_match "{{input}}".data inputSentinel.data ['}', '}'] (by decide)
    _ (le_refl _)]
  rw [replaceGo_not_contains _ _ _ _ (by decide)]
  simp [List.append_assoc]

/-- C1: nested extension argument resolution.  For every pattern consisting
of an extension call whose value argument is the reserved `{{input}}`
placeholder — any extension name and operation without colons or braces —
and for every variable mapping and every input, resolution with an echoing
dispatcher records exactly one invocation whose received value is the
caller's input itself: not the empty string and not the sentinel. -/
theorem nested_ext_receives_input (o : PatternsEntity) (homedir : Option String)
    (fs : FS) (source : String) (vars : List (String × String)) (input : String)
    (name op : String) (p : Pattern)
    (hload : loadPattern o homedir fs source = (some p, none))
    (hp : p.Pattern = extInputPattern name op)
    (hn1 : ':' ∉ name.data) (ho1 : ':' ∉ op.data)
    (hn2 : '{' ∉ name.data) (ho2 : '{' ∉ op.data)
    (hn3 : '}' ∉ name.data) (ho3 : '}' ∉ op.data) :
    GetApplyVariables o homedir fs echoDispatch source vars input
      = some (some { p with Pattern := strReplaceAll input inputSentinel input },
          none, [(name, op, input)]) := by
  have hcont : strContains (extInputPattern name op) "{{input}}" = true := by
    rw [strContains, listContains_iff]
    refine ⟨'{' :: '{' :: 'e' :: 'x' :: 't' :: ':' :: (name.data ++ ':' :: op.data
      ++ [':']), ['}', '}'], ?_⟩
    show _ = "\x7b\x7bext:".data ++ name.data ++ ":".data ++ op.data
        ++ ":\x7b\x7binput\x7d\x7d\x7d\x7d".data
    simp [List.append_assoc]
  have hens : ensureInput (extInputPattern name op) = extInputPattern name op := by
    rw [ensureInput, if_pos hcont]
  have hfree1 : '{' ∉ "ext:".data ++ (name.data ++ (':' :: (op.data
      ++ (':' :: inputSentinel.data)))) := by
    intro hx
    rcases List.mem_append.mp hx with h | h
    · exact absurd h (by decide)
    rcases List.mem_append.mp h with h | h
    · exact hn2 h
    rcases List.mem_cons.mp h with h | h
    · exact absurd h (by decide)
    rcases List.mem_append.mp h with h | h
    · exact ho2 h
    rcases List.mem_cons.mp h with h | h
    · exact absurd h (by decide)
    · exact absurd h (by decide)
  have hfree2 : '}' ∉ "ext:".data ++ (name.data ++ (':' :: (op.data
      ++ (':' :: inputSentinel.data)))) := by
    intro hx
    rcases List.mem_append.mp hx with h | h
    · exact absurd h (by decide)
    rcases List.mem_append.mp h with h | h
    · exact hn3 h
    rcases List.mem_cons.mp h with h | h
    · exact absurd h (by decide)
    rcases List.mem_append.mp h with h | h
    · exact ho3 h
    rcases List.mem_cons.mp h with h | h
    · exact absurd h (by decide)
    · exact absurd h (by decide)
  have happ : ApplyTemplate echoDispatch
      ⟨'{' :: '{' :: (("ext:".data ++ (name.data ++ (':' :: (op.data
        ++ (':' :: inputSentinel.data))))) ++ '}' :: '}' :: [])⟩ vars input
      = .ok (input, [(name, op, input)]) := by
    simp only [ApplyTemplate]
    show (match expandGo echoDispatch vars input
        ('{' :: '{' :: (("ext:".data ++ (name.data ++ (':' :: (op.data
          ++ (':' :: inputSentinel.data))))) ++ '}' :: '}' :: [])).length
        ('{' :: '{' :: (("ext:".data ++ (name.data ++ (':' :: (op.data
          ++ (':' :: inputSentinel.data))))) ++ '}' :: '}' :: [])) with
      | .error e => .error e
      | .ok (out, calls) => .ok (⟨out⟩, calls))
      = Except.ok (input, [(name, op, input)])
    simp only [List.length_cons]
    rw [expandGo_single_ext echoDispatch vars input name op inputSentinel.data
      _ hn1 ho1 hfree1 hfree2]
    rw [strReplaceAll_sentinel_self input]
    show Except.ok (⟨input.data⟩, [(name, op, input)])
        = Except.ok (input, [(name, op, input)])
    rfl
  simp only [GetApplyVariables, hload, applyVariables, hp, hens,
    sentinelize_ext_pattern name op hn2 ho2, happ]

/-- C1 witness: the regression scenario itself, pattern
`"{{ext:openai:chat:{{input}}}}"` with input `"hello"`: the extension
receives `"hello"`. -/
theorem nested_ext_receives_input_witness :
    GetApplyVariables oPat none fsAiEcho echoDispatch "ai_echo" [] "hello"
      = some (some ⟨"ai_echo", "", "hello"⟩, none, [("openai", "chat", "hello")]) := by
  have h := nested_ext_receives_input oPat none fsAiEcho "ai_echo" [] "hello"
    "openai" "chat" ⟨"ai_echo", "", "{{ext:openai:chat:{{input}}}}"⟩ rfl (by decide)
    (by decide) (by decide) (by decide) (by decide) (by decide) (by decide)
  exact h.trans (by rfl)

/-- C8: expansion is all-or-nothing.  Whenever the variable/extension
expansion phase fails, `GetApplyVariables` returns exactly that error, and
the pattern is not left half-substituted: its text is the `ensureInput`
form of the original (no sentinel substitution and no replacement has been
committed), and in particular it contains no sentinel when the original
did not. -/
theorem expansion_error_aborts (o : PatternsEntity) (homedir : Option String)
    (fs : FS) (dispatch : String → String → String → Except String String)
    (source : String) (vars : List (String × String)) (input : String)
    (p : Pattern) (e : String)
    (hload : loadPattern o homedir fs source = (some p, none))
    (herr : ApplyTemplate dispatch
        (strReplaceAll (ensureInput p.Pattern) "{{input}}" inputSentinel) vars input
        = .error e) :
    GetApplyVariables o homedir fs dispatch source vars input
      = some (some { p with Pattern := ensureInput p.Pattern }, some e, []) ∧
    (strContains p.Pattern inputSentinel = false →
      strContains (ensureInput p.Pattern) inputSentinel = false) := by
  constructor
  · simp only [GetApplyVariables, hload, applyVariables, herr]
  · intro hno
    rw [ensureInput]
    by_cases hci : strContains p.Pattern "{{input}}" = true
    · rw [if_pos hci]
      exact hno
    · rw [if_neg hci]
      have hdisj : ∀ c : Char, c ∈ '\n' :: "{{input}}".data → c ∉ inputSentinel.data := by
        decide
      by_cases hend : strEndsWith p.Pattern "\n" = true
      · rw [if_pos hend]
        rw [strContains]
        show listContains inputSentinel.data (p.Pattern.data ++ "{{input}}".data) = false
        by_cases hc : listContains inputSentinel.data
            (p.Pattern.data ++ "{{input}}".data) = true
        · exfalso
          rcases listContains_append_cases hc with hin | ⟨c, hcp, hcb⟩
          · rw [strContains] at hno
            rw [hin] at hno
            exact absurd hno (by simp)
          · exact hdisj c (List.mem_cons_of_mem _ hcb) hcp
        · simpa using hc
      · rw [if_neg hend]
        rw [strContains]
        show listContains inputSentinel.data
            ((p.Pattern.data ++ '\n' :: []) ++ "{{input}}".data) = false
        rw [List.append_assoc]
        by_cases hc : listContains inputSentinel.data
            (p.Pattern.data ++ ('\n' :: [] ++ "{{input}}".data)) = true
        · exfalso
          rcases listContains_append_cases hc with hin | ⟨c, hcp, hcb⟩
          · rw [strContains] at hno
            rw [hin] at hno
            exact absurd hno (by simp)
          · exact hdisj c (by simpa using hcb) hcp
        · simpa using hc

/-- C8 witness: a failing dispatcher aborts the resolution of
`"{{ext:a:b:c}}"` with the wrapped error, and the returned pattern text is
the un-substituted `ensureInput` form. -/
theorem expansion_error_aborts_witness :
    GetApplyVariables oPat none fsExtOnly failDispatch "e" [] "inp"
      = some (some ⟨"e", "", "{{ext:a:b:c}}\n{{input}}"⟩,
          some "extension a:b: boom", []) ∧
    strContains "{{ext:a:b:c}}\n{{input}}" inputSentinel = false := by
  have h := expansion_error_aborts oPat none fsExtOnly failDispatch "e" [] "inp"
    ⟨"e", "", "{{ext:a:b:c}}"⟩ "extension a:b: boom" rfl (by rfl)
  exact ⟨h.1.trans (by rfl), by decide⟩

/-- C5: for every stored pattern text that does not contain the literal
`{{input}}` token, resolution first appends the placeholder on its own
line (the `ensureInput` form ends in a line break followed by the
placeholder), and whenever `GetApplyVariables` succeeds the final resolved
text contains the literal input value at least once. -/
theorem input_always_present (o : PatternsEntity) (homedir : Option String)
    (fs : FS) (dispatch : String → String → String → Except String String)
    (source : String) (vars : List (String × String)) (input : String)
    (p p' : Pattern) (calls : List ExtCall)
    (hload : loadPattern o homedir fs source = (some p, none))
    (hni : strContains p.Pattern "{{input}}" = false)
    (hres : GetApplyVariables o homedir fs dispatch source vars input
      = some (some p', none, calls)) :
    (∃ q : String, ensureInput p.Pattern = q ++ "\n" ++ "{{input}}") ∧
    strContains p'.Pattern input = true := by
  have hdecomp := ensureInput_decomp hni
  constructor
  · obtain ⟨q, hq1, _⟩ := hdecomp
    refine ⟨⟨q⟩, String.ext ?_⟩
    rw [hq1]
    show q ++ '\n' :: "{{input}}".data = (q ++ '\n' :: []) ++ "{{input}}".data
    simp
  · simp only [GetApplyVariables, hload] at hres
    simp only [applyVariables] at hres
    cases happ : ApplyTemplate dispatch
        (strReplaceAll (ensureInput p.Pattern) "{{input}}" inputSentinel) vars input with
    | error e =>
      rw [happ] at hres
      simp at hres
    | ok pr =>
      obtain ⟨processed, cls⟩ := pr
      rw [happ] at hres
      simp only [Option.some.injEq, Prod.mk.injEq] at hres
      obtain ⟨hp', -, -⟩ := hres
      have hsuf := withSentinel_suffix hni
      have hcont : listContains inputSentinel.data processed.data = true := by
        simp only [ApplyTemplate] at happ
        cases hexp : expandGo dispatch vars input
            (strReplaceAll (ensureInput p.Pattern) "{{input}}" inputSentinel).data.length
            (strReplaceAll (ensureInput p.Pattern) "{{input}}" inputSentinel).data with
        | error e =>
          rw [hexp] at happ
          exact Except.noConfusion happ
        | ok pr2 =>
          obtain ⟨out, cls2⟩ := pr2
          rw [hexp] at happ
          simp only [Except.ok.injEq, Prod.mk.injEq] at happ
          obtain ⟨hp2, -⟩ := happ
          rw [← hp2]
          exact expandGo_keeps_token dispatch vars input inputSentinel.data
            (by decide) (by decide) _ _ out cls2 hsuf hexp
      rw [← hp']
      exact strReplaceAll_contains (by decide) hcont

/-- C5 witness. -/
theorem input_always_present_witness :
    (∃ q : String, ensureInput "Hello" = q ++ "\n" ++ "{{input}}") ∧
    strContains "Hello\nworld" "world" = true := by
  have h := input_always_present oPat none fsPlain echoDispatch "plain" [] "world"
    ⟨"plain", "", "Hello"⟩ ⟨"plain", "", "Hello\nworld"⟩ [] rfl (by decide) (by rfl)
  exact h

/-- The input placeholder has no self-overlap: no nonempty proper suffix of
it is also a prefix of it.  This is what makes the occurrence structure of
a text unambiguous for the left-to-right replacement scan. -/
theorem inputNoOverlap :
    ∀ k, k < "{{input}}".data.length → 0 < k →
      "{{input}}".data.drop ("{{input}}".data.length - k) ≠ "{{input}}".data.take k := by
  decide

/-- A match cannot start inside a pattern-free block `d :: q` that is
directly followed by an occurrence of a non-self-overlapping pattern: it
would either lie inside the block or force a self-overlap. -/
theorem isPrefixOf_seg_false {pat : List Char} {d : Char} {q s : List Char}
    (hno : ∀ k, k < pat.length → 0 < k →
      pat.drop (pat.length - k) ≠ pat.take k)
    (hq : listContains pat (d :: q) = false) :
    pat.isPrefixOf ((d :: q) ++ (pat ++ s)) = false := by
  by_contra h
  rw [Bool.not_eq_false, List.isPrefixOf_iff_prefix] at h
  by_cases hlen : pat.length ≤ (d :: q).length
  · have hpre : pat <+: (d :: q) :=
      List.prefix_of_prefix_length_le h (List.prefix_append (d :: q) (pat ++ s)) hlen
    have : listContains pat (d :: q) = true := listContains_iff.mpr hpre.isInfix
    simp [this] at hq
  · push_neg at hlen
    obtain ⟨t, ht⟩ := h
    have htake : pat = (d :: q) ++ pat.take (pat.length - (d :: q).length) := by
      have h1 := congrArg (List.take pat.length) ht
      rw [List.take_left, List.take_append_eq_append_take,
        List.take_of_length_le (le_of_lt hlen),
        List.take_append_of_le_length (by omega)] at h1
      exact h1
    have hdrop : pat.drop ((d :: q).length) = pat.take (pat.length - (d :: q).length) := by
      have h2 := congrArg (List.drop (d :: q).length) htake
      rw [List.drop_left] at h2
      exact h2
    have hd1 : 0 < (d :: q).length := by simp
    refine hno (pat.length - (d :: q).length) (by omega) (by omega) ?_
    rw [show pat.length - (pat.length - (d :: q).length) = (d :: q).length from by omega]
    exact hdrop

/-- Scanning a pattern-free block followed by an occurrence of a
non-self-overlapping pattern keeps the block, replaces the occurrence, and
continues after it. -/
theorem replaceGo_seg_match (pat rep : List Char) (hpat : pat ≠ [])
    (hno : ∀ k, k < pat.length → 0 < k →
      pat.drop (pat.length - k) ≠ pat.take k) :
    ∀ (q s : List Char) (fuel : Nat), listContains pat q = false →
      (q ++ (pat ++ s)).length ≤ fuel →
      replaceGo pat rep fuel (q ++ (pat ++ s))
        = q ++ (rep ++ replaceGo pat rep (fuel - (q.length + 1)) s) := by
  intro q
  induction q with
  | nil =>
    intro s fuel hq hf
    simp only [List.nil_append] at hf ⊢
    rw [replaceGo_head_match pat rep s hpat fuel hf]
    simp
  | cons d q' ih =>
    intro s fuel hq hf
    simp only [List.cons_append, List.length_cons, List.length_append] at hf
    obtain ⟨f, rfl⟩ : ∃ f, fuel = f + 1 := ⟨fuel - 1, by omega⟩
    rw [List.cons_append, replaceGo]
    have hnm : pat.isPrefixOf (d :: (q' ++ (pat ++ s))) = false := by
      have h0 := isPrefixOf_seg_false (d := d) (q := q') (s := s) hno hq
      simpa using h0
    rw [hnm]
    simp only [Bool.false_eq_true, if_false]
    have hq' : listContains pat q' = false := by
      rw [listContains, Bool.or_eq_false_iff] at hq
      exact hq.2
    rw [ih s f hq' (by simp only [List.length_append]; omega)]
    have harith : f - (q'.length + 1) = f + 1 - (q'.length + 1 + 1) := by omega
    rw [harith]
    simp

/-- A text assembled from at least two segments around a separator contains
the separator. -/
theorem joinSep_contains (pat s0 s1 : List Char) (rest : List (List Char)) :
    listContains pat (joinSep pat (s0 :: s1 :: rest)) = true := by
  rw [listContains_iff]
  exact ⟨s0, joinSep pat (s1 :: rest), (List.append_assoc s0 pat _).trans rfl⟩

/-- Replacing a non-self-overlapping pattern in a text assembled from
pattern-free segments replaces exactly the separator occurrences and
emits every segment verbatim. -/
theorem replaceGo_joinSep (pat rep : List Char) (hpat : pat ≠ [])
    (hno : ∀ k, k < pat.length → 0 < k →
      pat.drop (pat.length - k) ≠ pat.take k) :
    ∀ (segs : List (List Char)) (fuel : Nat),
      (∀ s ∈ segs, listContains pat s = false) →
      (joinSep pat segs).length ≤ fuel →
      replaceGo pat rep fuel (joinSep pat segs) = joinSep rep segs := by
  intro segs
  induction segs with
  | nil =>
    intro fuel _ _
    show replaceGo pat rep fuel [] = []
    exact replaceGo_nil pat rep fuel
  | cons s0 rest ih =>
    cases rest with
    | nil =>
      intro fuel hfree _
      show replaceGo pat rep fuel s0 = s0
      exact replaceGo_not_contains pat rep fuel s0 (hfree s0 (by simp))
    | cons s1 rest' =>
      intro fuel hfree hf
      have hj : joinSep pat (s0 :: s1 :: rest')
          = s0 ++ (pat ++ joinSep pat (s1 :: rest')) := rfl
      rw [hj] at hf ⊢
      rw [replaceGo_seg_match pat rep hpat hno s0 (joinSep pat (s1 :: rest')) fuel
        (hfree s0 (by simp)) hf]
      have hp1 : 0 < pat.length := List.length_pos.mpr hpat
      have hlen2 : (joinSep pat (s1 :: rest')).length ≤ fuel - (s0.length + 1) := by
        simp only [List.length_append] at hf
        omega
      rw [ih (fuel - (s0.length + 1)) (fun s hs => hfree s (by simp [hs])) hlen2]
      rfl

/-- C7: for every pattern text and input, the input-only entry point
(`GetWithoutVariables`) ensures the input placeholder is present and
replaces every literal `{{input}}` occurrence with the input string,
performing no other transformation.  Part one covers every loaded pattern
text containing the placeholder, given as its segments around the
occurrences (one occurrence per separator position, any number of them):
every occurrence becomes the input and every segment — hence every other
placeholder, variable or extension call alike — is emitted verbatim.  Part
two covers every loaded pattern text lacking the placeholder: the
placeholder is appended on its own line and then replaced, so the result
is the original text (with its final line break), then the input. -/
theorem getWithoutVariables_input_only :
    (∀ (o : PatternsEntity) (homedir : Option String) (fs : FS)
        (source input : String) (p : Pattern) (segs : List (List Char)),
        loadPattern o homedir fs source = (some p, none) →
        p.Pattern.data = joinSep "{{input}}".data segs →
        2 ≤ segs.length →
        (∀ s ∈ segs, listContains "{{input}}".data s = false) →
        GetWithoutVariables o homedir fs source input
          = some (some { p with Pattern := ⟨joinSep input.data segs⟩ }, none)) ∧
    (∀ (o : PatternsEntity) (homedir : Option String) (fs : FS)
        (source input : String) (p : Pattern),
        loadPattern o homedir fs source = (some p, none) →
        strContains p.Pattern "{{input}}" = false →
        ∃ q : List Char,
          (ensureInput p.Pattern).data = q ++ '\n' :: "{{input}}".data ∧
          GetWithoutVariables o homedir fs source input
            = some (some { p with Pattern := ⟨q ++ '\n' :: input.data⟩ }, none)) := by
  constructor
  · intro o homedir fs source input p segs hload hsegs hlen hfree
    obtain ⟨s0, s1, rest, rfl⟩ : ∃ s0 s1 rest, segs = s0 :: s1 :: rest := by
      cases segs with
      | nil => simp at hlen
      | cons s0 t =>
        cases t with
        | nil => simp at hlen
        | cons s1 rest => exact ⟨s0, s1, rest, rfl⟩
    have hcont : strContains p.Pattern "{{input}}" = true := by
      rw [strContains, hsegs]
      exact joinSep_contains _ s0 s1 rest
    have hens : ensureInput p.Pattern = p.Pattern := by
      rw [ensureInput, if_pos hcont]
    have hrep : strReplaceAll p.Pattern "{{input}}" input
        = ⟨joinSep input.data (s0 :: s1 :: rest)⟩ := by
      rw [strReplaceAll, if_neg (by decide)]
      refine congrArg String.mk ?_
      rw [hsegs]
      exact replaceGo_joinSep "{{input}}".data input.data (by decide) inputNoOverlap
        (s0 :: s1 :: rest) _ hfree (le_refl _)
    simp only [GetWithoutVariables, hload, applyInput, hens, hrep]
  · intro o homedir fs source input p hload hni
    obtain ⟨q, hq1, hq2⟩ := ensureInput_decomp hni
    refine ⟨q, hq1, ?_⟩
    have hrep : strReplaceAll (ensureInput p.Pattern) "{{input}}" input
        = ⟨q ++ '\n' :: input.data⟩ := by
      rw [strReplaceAll, if_neg (by decide)]
      refine congrArg String.mk ?_
      rw [hq1]
      rw [replaceGo_append_sep "{{input}}".data input.data "{{input}}".data
        (by decide) (by decide) hq2 _ (le_of_eq rfl)]
      have hf2 : (q ++ '\n' :: "{{input}}".data).length - (q.length + 1)
          = "{{input}}".data.length := by
        simp only [List.length_append, List.length_cons]
        omega
      rw [hf2]
      have hhm := replaceGo_head_match "{{input}}".data input.data []
        (by decide) "{{input}}".data.length (by simp)
      rw [List.append_nil] at hhm
      rw [hhm, replaceGo_nil, List.append_nil]
    simp only [GetWithoutVariables, hload, applyInput, hrep]

/-- C7 witness: on a stored pattern holding a variable placeholder, an
extension call and two input occurrences, both occurrences become the
input while the other placeholders stay literal; on a stored pattern
lacking the placeholder, the placeholder is appended on a new line and
then replaced by the input. -/
theorem getWithoutVariables_input_only_witness :
    GetWithoutVariables oPat none fsMulti "multi" "X"
      = some (some ⟨"multi", "",
          "Name: {{name}}, Ext: {{ext:a:b:c}}, In: X, Again: X!"⟩, none) ∧
    GetWithoutVariables oPat none fsPlain "plain" "X"
      = some (some ⟨"plain", "", "Hello\nX"⟩, none) := by
  constructor
  · have h := getWithoutVariables_input_only.1 oPat none fsMulti "multi" "X"
      ⟨"multi", "",
        "Name: {{name}}, Ext: {{ext:a:b:c}}, In: {{input}}, Again: {{input}}!"⟩
      ["Name: {{name}}, Ext: {{ext:a:b:c}}, In: ".data, ", Again: ".data, "!".data]
      rfl (by decide) (by decide) (by decide)
    exact h.trans (by rfl)
  · obtain ⟨q, hq1, hq2⟩ := getWithoutVariables_input_only.2 oPat none fsPlain "plain" "X"
      ⟨"plain", "", "Hello"⟩ rfl (by decide)
    have h1 : "Hello".data ++ '\n' :: "{{input}}".data
        = q ++ '\n' :: "{{input}}".data := hq1
    have hq : q = "Hello".data :=
      (List.append_cancel_right h1).symm
    rw [hq] at hq2
    exact hq2.trans (by rfl)

end Fabric
